import Mathlib

/-!
Verification of the pooling/clustering core of the MPhilThesis repository.

The Lean definitions below are shallow embeddings of the Python source:

* `src/kmeans.py` — the `KMeans` iterative clustering engine (similarity
  functions, the `fit_predict` centroid update, `predict`, and the
  constructor validation).
* `src/poolblocks/poolblock.py` — `_calculate_local_clusters_scipy`,
  `_generate_assignments`, and the `MonteCarloBlock` pooling block
  (mask derivation, clustering loss, the `end_epoch` state machine, and
  constructor/forward validation).

Machine floats are idealised as rationals (`ℚ`); the claims under
consideration are order/algebra statements that are exact in this model.
Where the repository calls `graphutils.dense_components` — a module that
is part of the repository but not among the provided sources — the
component computation is modelled from the specification (section 4.3)
and marked as such in its doc comment.
-/

/-! ## Vectors as lists of rationals -/

/-- Dot product of two vectors (`a @ b` on equal-length vectors). -/
def dotList (a b : List ℚ) : ℚ := (List.zipWith (· * ·) a b).sum

/-- Sum of squares of the entries of a vector (`(a ** 2).sum(dim=1)`). -/
def sumSq (a : List ℚ) : ℚ := (a.map (fun x => x ^ 2)).sum

/-- Squared euclidean distance between two vectors. -/
def sqDist (a b : List ℚ) : ℚ := (List.zipWith (fun x y => (x - y) ^ 2) a b).sum

/-- The zero vector of dimension `d` (`torch.zeros`). -/
def zeroVec (d : ℕ) : List ℚ := List.replicate d 0

/-- Componentwise vector addition. -/
def vecAdd (a b : List ℚ) : List ℚ := List.zipWith (· + ·) a b

/-- Scaling of a vector by a rational. -/
def vecSmul (q : ℚ) (v : List ℚ) : List ℚ := v.map (fun x => q * x)

/-- Sum of a list of `d`-dimensional vectors. -/
def sumVecs (d : ℕ) (vs : List (List ℚ)) : List ℚ := vs.foldl vecAdd (zeroVec d)

/-! ## Similarity engine (`KMeans.euc_sim`, src/kmeans.py line 94) -/

/-- `KMeans.euc_sim` entry for one pair of rows:
`2 * a @ b.T - (a ** 2).sum(dim=1) - (b ** 2).sum(dim=1)`. -/
def eucSim (a b : List ℚ) : ℚ := 2 * dotList a b - sumSq a - sumSq b

/-- Maximum of a list of rationals (`torch.max` value; `0` on the empty
list, which torch rejects). -/
def listMax : List ℚ → ℚ
  | [] => 0
  | [x] => x
  | x :: y :: t => max x (listMax (y :: t))

/-- Minimum of a list of rationals (`torch.min` value; `0` on the empty
list, which torch rejects). -/
def listMin : List ℚ → ℚ
  | [] => 0
  | [x] => x
  | x :: y :: t => min x (listMin (y :: t))

/-- Index of the first maximal entry (`sim.max(dim=-1)` index output). -/
def argmaxIdx : List ℚ → ℕ
  | [] => 0
  | [_] => 0
  | x :: y :: t => if listMax (y :: t) ≤ x then 0 else argmaxIdx (y :: t) + 1

/-- Index of the first minimal entry (the true nearest-neighbour index). -/
def argminIdx : List ℚ → ℕ
  | [] => 0
  | [_] => 0
  | x :: y :: t => if x ≤ listMin (y :: t) then 0 else argminIdx (y :: t) + 1

/-- `KMeans.predict` in euclidean mode: each sample is mapped to the index
of the centroid of maximal `euc_sim` (src/kmeans.py lines 251-265 via
`max_sim`). -/
def predictEuc (X centroids : List (List ℚ)) : List ℕ :=
  X.map (fun x => argmaxIdx (centroids.map (fun c => eucSim x c)))

theorem eucSim_eq_neg_sqDist (a b : List ℚ) (h : a.length = b.length) :
    eucSim a b = -sqDist a b := by
  induction a generalizing b with
  | nil =>
    cases b with
    | nil => simp [eucSim, dotList, sumSq, sqDist]
    | cons y t => simp at h
  | cons x xs ih =>
    cases b with
    | nil => simp at h
    | cons y ys =>
      simp only [List.length_cons, Nat.succ.injEq] at h
      have hxy := ih ys h
      simp only [eucSim, dotList, sumSq, sqDist, List.zipWith_cons_cons,
        List.map_cons, List.sum_cons] at hxy ⊢
      ring_nf
      ring_nf at hxy
      linarith

theorem listMax_map_neg (l : List ℚ) : listMax (l.map Neg.neg) = -listMin l := by
  induction l with
  | nil => simp [listMax, listMin]
  | cons x t ih =>
    cases t with
    | nil => simp [listMax, listMin]
    | cons y s =>
      simp only [List.map_cons] at ih ⊢
      rw [show listMax (-x :: -y :: List.map Neg.neg s) = max (-x) (listMax (-y :: List.map Neg.neg s)) from rfl,
        show listMin (x :: y :: s) = min x (listMin (y :: s)) from rfl, ih]
      rw [max_comm, max_neg_neg, min_comm]

theorem argmaxIdx_map_neg (l : List ℚ) : argmaxIdx (l.map Neg.neg) = argminIdx l := by
  induction l with
  | nil => rfl
  | cons x t ih =>
    cases t with
    | nil => rfl
    | cons y s =>
      simp only [List.map_cons] at ih ⊢
      rw [show argmaxIdx (-x :: -y :: List.map Neg.neg s)
          = if listMax (-y :: List.map Neg.neg s) ≤ -x then 0
            else argmaxIdx (-y :: List.map Neg.neg s) + 1 from rfl,
        show argminIdx (x :: y :: s)
          = if x ≤ listMin (y :: s) then 0 else argminIdx (y :: s) + 1 from rfl]
      have hmax : listMax (-y :: List.map Neg.neg s) = -listMin (y :: s) := by
        have := listMax_map_neg (y :: s)
        simpa using this
      rw [hmax]
      have ihs : argmaxIdx (-y :: List.map Neg.neg s) = argminIdx (y :: s) := by
        simpa using ih
      by_cases hx : x ≤ listMin (y :: s)
      · rw [if_pos (by simpa using hx), if_pos hx]
      · rw [if_neg (by simpa using hx), if_neg hx, ihs]

/-! ## KMeans constructor (src/kmeans.py lines 45-65) -/

/-- Distance modes supported by `KMeans` (`mode` argument). -/
inductive KMode where
  | euclidean
  | cosine
deriving DecidableEq, Repr

/-- Whether an `Except` computation succeeded. -/
def exOk {α : Type} (e : Except String α) : Prop :=
  match e with
  | .ok _ => True
  | .error _ => False

instance {α : Type} (e : Except String α) : Decidable (exOk e) := by
  unfold exOk
  cases e with
  | ok a => exact inferInstanceAs (Decidable True)
  | error s => exact inferInstanceAs (Decidable False)

/-- `KMeans.__init__` validation: raises `NotImplementedError` iff the merge
threshold is nonzero and the mode is not euclidean (src/kmeans.py
lines 57-59); no other constructor code can raise. -/
def kmeansInitCheck (mode : KMode) (threshold : ℚ) : Except String Unit :=
  if threshold ≠ 0 ∧ mode ≠ KMode.euclidean then
    .error "NotImplementedError: threshold only implemented for euclidean"
  else
    .ok ()

/-! ## KMeans.fit_predict centroid update (src/kmeans.py lines 191-230)

For `minibatch = None` the code computes a one-hot membership mask,
`c_grad = mask @ x / mask.sum(-1)[..., :, None]`, replaces the `0/0 = NaN`
rows by `0`, and assigns `self.centroids = c_grad`.  A cluster with `cnt`
assigned points therefore receives the mean of those points, and a cluster
with no assigned points receives the zero vector.
-/

/-- The points of `X` whose nearest-centroid assignment is cluster `j`. -/
def assignedPoints (X : List (List ℚ)) (closest : List ℕ) (j : ℕ) : List (List ℚ) :=
  (X.zip closest).filterMap (fun p => if p.2 = j then some p.1 else none)

/-- One full-batch centroid update of `KMeans.fit_predict`
(src/kmeans.py lines 206-211 followed by line 225): cluster `j` becomes the
mean of its assigned points, or the zero vector when no point is assigned
(the NaN produced by `0/0` is overwritten with `0`). -/
def centroidUpdate (d : ℕ) (X : List (List ℚ)) (closest : List ℕ) (k : ℕ) :
    List (List ℚ) :=
  (List.range k).map (fun j =>
    let pts := assignedPoints X closest j
    if pts.length = 0 then zeroVec d
    else vecSmul (1 / (pts.length : ℚ)) (sumVecs d pts))

/-- Nearest-centroid assignment of each row of `X` in euclidean mode
(`max_sim(a=x, b=self.centroids)` index output, src/kmeans.py line 197). -/
def closestList (X centroids : List (List ℚ)) : List ℕ :=
  X.map (fun x => argmaxIdx (centroids.map (fun c => eucSim x c)))

/-- One full iteration of `fit_predict` with `minibatch=None` in euclidean
mode: assign every point to its nearest centroid, then apply the centroid
update. -/
def kmeansIterFull (d k : ℕ) (X centroids : List (List ℚ)) : List (List ℚ) :=
  centroidUpdate d X (closestList X centroids) k

/-- One iteration of `fit_predict` with `minibatch` set (src/kmeans.py
lines 193-194, 200, 212-213, 225): a subset `pick` of rows is sampled and
assigned to nearest centroids, but the update branch is `pass`, so
`c_grad` keeps its initialisation `torch.zeros_like(self.centroids)` and
`self.centroids = c_grad` zeroes every centroid.  Returns the new
centroids and the subset assignment. -/
def kmeansIterMinibatch (d k : ℕ) (X : List (List ℚ)) (pick : List ℕ)
    (centroids : List (List ℚ)) : List (List ℚ) × List ℕ :=
  let x := pick.map (fun i => X.getD i (zeroVec d))
  let closest := closestList x centroids
  (List.replicate k (zeroVec d), closest)

/-! ## KMeans random initialisation (src/kmeans.py lines 185-188) -/

/-- `np.random.choice(population, size=[size], replace=False)`: raises when
`size` exceeds the population, otherwise returns the drawn index list
(the draw itself is the oracle argument `pick`). -/
def randChoiceNoReplace (population size : ℕ) (pick : List ℕ) :
    Except String (List ℕ) :=
  if population < size then
    .error "ValueError: Cannot take a larger sample than population when replace is False"
  else
    .ok pick

/-- Centroid initialisation of `fit_predict` (also reached from `fit`):
caller-supplied centroids are used as given; otherwise `n_clusters` row
indices are drawn without replacement and the corresponding rows of `X`
are taken (src/kmeans.py lines 185-188). -/
def fitPredictInitCentroids (X : List (List ℚ)) (k : ℕ)
    (given : Option (List (List ℚ))) (pick : List ℕ) :
    Except String (List (List ℚ)) :=
  match given with
  | some c => .ok c
  | none => (randChoiceNoReplace X.length k pick).map
      (fun idxs => idxs.map (fun i => X.getD i []))

/-! ## Helper lemmas for list indexing and the argmax/argmin bridge -/

theorem map_eucSim_eq_map_neg_sqDist (d : ℕ) (a : List ℚ) (B : List (List ℚ))
    (ha : a.length = d) (hB : ∀ b ∈ B, b.length = d) :
    B.map (fun b => eucSim a b) = (B.map (fun b => sqDist a b)).map Neg.neg := by
  rw [List.map_map]
  apply List.map_congr_left
  intro b hb
  have : a.length = b.length := by rw [ha, hB b hb]
  simpa using eucSim_eq_neg_sqDist a b this

theorem argmax_eucSim_eq_argmin_sqDist (d : ℕ) (a : List ℚ) (B : List (List ℚ))
    (ha : a.length = d) (hB : ∀ b ∈ B, b.length = d) :
    argmaxIdx (B.map (fun b => eucSim a b)) = argminIdx (B.map (fun b => sqDist a b)) := by
  rw [map_eucSim_eq_map_neg_sqDist d a B ha hB, argmaxIdx_map_neg]

theorem getD_range_map {α : Type} (f : ℕ → α) (k j : ℕ) (dflt : α) (hj : j < k) :
    ((List.range k).map f).getD j dflt = f j := by
  rw [List.getD_eq_getElem?_getD, List.getElem?_map, List.getElem?_range hj]
  rfl

/-! ## Claim C3 -/

/-- C3: for all point sets, the argmax over centroids of `euc_sim`
(computed as `2·a·Bᵗ − rowsum(a²) − colsum(B²)`) equals the argmin of the
true squared euclidean distance, hence `KMeans.predict` in euclidean mode
returns for each point the index of the nearest centroid under squared
euclidean distance. -/
theorem euc_sim_argmax_is_nearest_centroid (d : ℕ) (a : List ℚ) (B : List (List ℚ))
    (X centroids : List (List ℚ))
    (ha : a.length = d) (hB : ∀ b ∈ B, b.length = d)
    (hX : ∀ x ∈ X, x.length = d) (hc : ∀ c ∈ centroids, c.length = d) :
    argmaxIdx (B.map (fun b => eucSim a b)) = argminIdx (B.map (fun b => sqDist a b)) ∧
    predictEuc X centroids
      = X.map (fun x => argminIdx (centroids.map (fun c => sqDist x c))) := by
  constructor
  · exact argmax_eucSim_eq_argmin_sqDist d a B ha hB
  · unfold predictEuc
    apply List.map_congr_left
    intro x hx
    exact argmax_eucSim_eq_argmin_sqDist d x centroids (hX x hx) hc

/-- Witness for C3 at a concrete input: one point `[0]`, centroids
`[[3],[1]]`; the shortcut argmax and the true argmin both pick index 1. -/
theorem euc_sim_argmax_is_nearest_centroid_witness :
    (([(0:ℚ)].length = 1) ∧ (∀ b ∈ [[(3:ℚ)],[1]], b.length = 1)) ∧
    (argmaxIdx ([[(3:ℚ)],[1]].map (fun b => eucSim [0] b))
        = argminIdx ([[(3:ℚ)],[1]].map (fun b => sqDist [0] b)) ∧
      predictEuc [[(0:ℚ)]] [[3],[1]]
        = [[(0:ℚ)]].map (fun x => argminIdx ([[(3:ℚ)],[1]].map (fun c => sqDist x c)))) :=
  ⟨⟨by decide, by decide⟩,
    euc_sim_argmax_is_nearest_centroid 1 [0] [[3],[1]] [[0]] [[3],[1]]
      (by decide) (by decide) (by decide) (by decide)⟩

/-! ## Claim C8 -/

/-- C8: constructing `KMeans` raises iff the threshold is nonzero and the
mode is not euclidean; euclidean mode succeeds for any threshold, and
threshold 0 succeeds for any supported mode. -/
theorem kmeans_init_error_iff (mode : KMode) (threshold : ℚ) :
    (¬ exOk (kmeansInitCheck mode threshold) ↔ threshold ≠ 0 ∧ mode ≠ KMode.euclidean) ∧
    exOk (kmeansInitCheck KMode.euclidean threshold) ∧
    exOk (kmeansInitCheck mode 0) := by
  unfold kmeansInitCheck
  refine ⟨?_, ?_, ?_⟩
  · split
    · rename_i h
      simp only [exOk]
      tauto
    · rename_i h
      simp only [exOk]
      tauto
  · split
    · rename_i h
      exact absurd rfl h.2
    · trivial
  · split
    · rename_i h
      exact absurd rfl h.1
    · trivial

/-! ## Claim C2 -/

/-- C2 counterexample: input `X = [[0]]` with caller-supplied centroids
`[[0],[10]]`.  Cluster 1 has zero assigned points, yet after one full
iteration its centroid is `[0]`, not its previous value `[10]`: the code
sets empty clusters to the zero vector instead of keeping them. -/
theorem kmeans_empty_cluster_counterexample :
    (assignedPoints [[(0:ℚ)]] (closestList [[(0:ℚ)]] [[0],[10]]) 1).length = 0 ∧
    kmeansIterFull 1 2 [[(0:ℚ)]] [[0],[10]] = [[0],[0]] ∧
    (kmeansIterFull 1 2 [[(0:ℚ)]] [[0],[10]]).getD 1 []
      ≠ ([[(0:ℚ)],[10]] : List (List ℚ)).getD 1 [] := by
  norm_num [kmeansIterFull, centroidUpdate, assignedPoints, closestList, argmaxIdx,
    eucSim, dotList, sumSq, listMax, vecSmul, sumVecs, vecAdd, zeroVec,
    List.range_succ, List.filterMap_cons, List.filterMap_nil]

/-- C2 amended: in every full-batch iteration of `KMeans.fit_predict`, any
centroid with zero assigned points is set to the zero vector (the NaN from
the 0/0 division is replaced by 0), while every centroid with at least one
assigned point is recomputed as the mean of its assigned points. -/
theorem kmeans_empty_cluster_zeroed (d k : ℕ) (X centroids : List (List ℚ))
    (j : ℕ) (hj : j < k) :
    (assignedPoints X (closestList X centroids) j = [] →
      (kmeansIterFull d k X centroids).getD j [] = zeroVec d) ∧
    (assignedPoints X (closestList X centroids) j ≠ [] →
      (kmeansIterFull d k X centroids).getD j []
        = vecSmul (1 / ((assignedPoints X (closestList X centroids) j).length : ℚ))
            (sumVecs d (assignedPoints X (closestList X centroids) j))) := by
  unfold kmeansIterFull centroidUpdate
  rw [getD_range_map _ k j [] hj]
  constructor
  · intro h
    simp [h]
  · intro h
    have hlen : (assignedPoints X (closestList X centroids) j).length ≠ 0 :=
      fun hc => h (List.length_eq_zero.mp hc)
    simp [hlen]

/-- Witness for the amended C2: two points `[2],[4]`, one centroid `[0]`;
both points are assigned to cluster 0 and the new centroid is their mean. -/
theorem kmeans_empty_cluster_zeroed_witness :
    ((0 < 1) ∧ assignedPoints [[(2:ℚ)],[4]] (closestList [[(2:ℚ)],[4]] [[0]]) 0 ≠ []) ∧
    (kmeansIterFull 1 1 [[(2:ℚ)],[4]] [[0]]).getD 0 []
      = vecSmul (1 / ((assignedPoints [[(2:ℚ)],[4]] (closestList [[(2:ℚ)],[4]] [[0]]) 0).length : ℚ))
          (sumVecs 1 (assignedPoints [[(2:ℚ)],[4]] (closestList [[(2:ℚ)],[4]] [[0]]) 0)) :=
  ⟨⟨by decide, by decide⟩,
    (kmeans_empty_cluster_zeroed 1 1 [[2],[4]] [[0]] 0 (by decide)).2 (by decide)⟩

/-! ## Claim C4 -/

/-- C4: with `minibatch` set, one iteration samples a subset and assigns
it to nearest centroids, but the update branch of the code is `pass`:
`c_grad` keeps its all-zero initialisation and every centroid is set to
the zero vector — not the mean of its assigned subset points, which the
class docstring (MinibatchKmeans) and the claim require.  Evaluated at
`X = [[1]]`, subset `[0]`, centroid `[[5]]`: the code yields `[[0]]`
while the documented subset-mean update yields `[[1]]`. -/
theorem kmeans_minibatch_zeroes_centroids :
    (kmeansIterMinibatch 1 1 [[(1:ℚ)]] [0] [[5]]).1 = [[0]] ∧
    centroidUpdate 1 [[(1:ℚ)]] (closestList [[(1:ℚ)]] [[5]]) 1 = [[1]] ∧
    ([[(0:ℚ)]] : List (List ℚ)) ≠ [[1]] := by
  norm_num [kmeansIterMinibatch, centroidUpdate, assignedPoints, closestList,
    argmaxIdx, eucSim, dotList, sumSq, listMax, vecSmul, sumVecs, vecAdd, zeroVec,
    List.range_succ, List.filterMap_cons, List.filterMap_nil]

/-! ## Claim C10 -/

/-- C10: random centroid initialisation draws `n_clusters` distinct row
indices without replacement, so `fit`/`fit_predict` without caller-supplied
centroids fails on every input with fewer rows than `n_clusters` (and no
valid without-replacement draw even exists), and succeeds with the chosen
rows otherwise. -/
theorem kmeans_random_init_needs_enough_rows (X : List (List ℚ)) (k : ℕ)
    (pick : List ℕ) :
    (X.length < k → ¬ exOk (fitPredictInitCentroids X k none pick)) ∧
    (exOk (fitPredictInitCentroids X k none pick) → k ≤ X.length) ∧
    (X.length < k → ¬ ∃ p : List ℕ, p.length = k ∧ p.Nodup ∧ ∀ i ∈ p, i < X.length) ∧
    (k ≤ X.length →
      fitPredictInitCentroids X k none pick = .ok (pick.map (fun i => X.getD i []))) := by
  refine ⟨?_, ?_, ?_, ?_⟩
  · intro h
    unfold fitPredictInitCentroids randChoiceNoReplace
    simp only [if_pos h]
    intro hc
    exact hc
  · intro h
    by_contra hlt
    unfold fitPredictInitCentroids randChoiceNoReplace at h
    rw [if_pos (Nat.lt_of_not_le hlt)] at h
    exact h
  · intro h
    rintro ⟨p, hlen, hnodup, hmem⟩
    have hcard : p.toFinset.card = k := by
      rw [List.toFinset_card_of_nodup hnodup, hlen]
    have hsub : p.toFinset ⊆ Finset.range X.length := by
      intro i hi
      exact Finset.mem_range.mpr (hmem i (List.mem_toFinset.mp hi))
    have := Finset.card_le_card hsub
    rw [hcard, Finset.card_range] at this
    exact absurd h (Nat.not_lt.mpr this)
  · intro h
    unfold fitPredictInitCentroids randChoiceNoReplace
    rw [if_neg (Nat.not_lt.mpr h)]
    rfl

/-- Witness for C10: two rows, `k = 2`, draw `[1,0]` — initialisation
succeeds and picks rows 1 and 0. -/
theorem kmeans_random_init_needs_enough_rows_witness :
    (2 ≤ ([[(0:ℚ)],[1]] : List (List ℚ)).length) ∧
    fitPredictInitCentroids [[(0:ℚ)],[1]] 2 none [1, 0] = .ok [[1],[0]] :=
  ⟨by decide, by
    have h := (kmeans_random_init_needs_enough_rows [[0],[1]] 2 [1, 0]).2.2.2 (by decide)
    simpa using h⟩

/-! ## MonteCarloBlock.hard_fn mask derivation
(src/poolblocks/poolblock.py lines 547-550) -/

/-- `torch.max(assignments, dim=-1)` for one batch element: the largest
cluster id occurring in the row (0 stands for masked nodes). -/
def observedClusterCount (row : List ℕ) : ℕ := row.foldl max 0

/-- One row of `mask_new`:
`torch.arange(num_new)[None, :] < num_clusters[:, None]`. -/
def maskNewRow (numNew : ℕ) (row : List ℕ) : List Bool :=
  (List.range numNew).map (fun c => decide (c < observedClusterCount row))

/-- The full `mask_new` tensor of `MonteCarloBlock.hard_fn`. -/
def maskNew (numNew : ℕ) (assignments : List (List ℕ)) : List (List Bool) :=
  assignments.map (maskNewRow numNew)

theorem init_le_foldl_max (row : List ℕ) (init : ℕ) : init ≤ row.foldl max init := by
  induction row generalizing init with
  | nil => exact le_refl _
  | cons x t ih => exact le_trans (le_max_left init x) (ih (max init x))

theorem le_foldl_max (row : List ℕ) (a : ℕ) (h : a ∈ row) :
    ∀ init : ℕ, a ≤ row.foldl max init := by
  induction row with
  | nil => cases h
  | cons x t ih =>
    intro init
    rcases List.mem_cons.mp h with rfl | hmem
    · exact le_trans (le_max_right init a) (init_le_foldl_max t (max init a))
    · exact ih hmem (max init x)

theorem foldl_max_eq_init_or_mem (row : List ℕ) (init : ℕ) :
    row.foldl max init = init ∨ row.foldl max init ∈ row := by
  induction row generalizing init with
  | nil => exact Or.inl rfl
  | cons x t ih =>
    rcases ih (max init x) with h | h
    · rcases Nat.le_total init x with hle | hle
      · right
        rw [List.foldl_cons, h, max_eq_right hle]
        exact List.mem_cons_self x t
      · left
        rw [List.foldl_cons, h, max_eq_left hle]
    · right
      exact List.mem_cons_of_mem x h

/-! ## Claim C5 -/

/-- C5: for every row of `MonteCarloBlock.hard_fn` assignments, the new
validity mask is true at column `c` iff `c` is less than the observed
cluster count of that batch element, where the observed cluster count is
the maximum cluster id occurring in the row (id 0 reserved for masked
nodes): every id is bounded by it and, when nonzero, it occurs in the row. -/
theorem new_mask_true_iff_lt_cluster_count (numNew : ℕ) (A : List (List ℕ))
    (row : List ℕ) (hrow : row ∈ A) (c : ℕ) (hc : c < numNew) :
    maskNewRow numNew row ∈ maskNew numNew A ∧
    ((maskNewRow numNew row).getD c false = true ↔ c < observedClusterCount row) ∧
    (∀ a ∈ row, a ≤ observedClusterCount row) ∧
    (observedClusterCount row ≠ 0 → observedClusterCount row ∈ row) := by
  refine ⟨List.mem_map_of_mem (maskNewRow numNew) hrow, ?_, ?_, ?_⟩
  · unfold maskNewRow
    rw [getD_range_map _ numNew c false hc]
    exact decide_eq_true_iff
  · intro a ha
    exact le_foldl_max row a ha 0
  · intro hne
    rcases foldl_max_eq_init_or_mem row 0 with h | h
    · exact absurd h hne
    · exact h

/-- Witness for C5: assignments `[[1,0,2,1]]` (observed count 2), with
three new-node columns; column 1 is valid, column 2 is not. -/
theorem new_mask_true_iff_lt_cluster_count_witness :
    ([1,0,2,1] ∈ [[1,0,2,1]] ∧ 1 < 3) ∧
    (maskNewRow 3 [1,0,2,1] ∈ maskNew 3 [[1,0,2,1]] ∧
      ((maskNewRow 3 [1,0,2,1]).getD 1 false = true ↔ 1 < observedClusterCount [1,0,2,1]) ∧
      (∀ a ∈ [1,0,2,1], a ≤ observedClusterCount [1,0,2,1]) ∧
      (observedClusterCount [1,0,2,1] ≠ 0 → observedClusterCount [1,0,2,1] ∈ [1,0,2,1])) :=
  ⟨⟨by decide, by decide⟩,
    new_mask_true_iff_lt_cluster_count 3 [[1,0,2,1]] [1,0,2,1] (by decide) 1 (by decide)⟩

/-! ## MonteCarloBlock.hard_fn clustering loss
(src/poolblocks/poolblock.py lines 551-557, distances from line 365)

`torch.cdist` and `torch.linalg.vector_norm` involve real square roots,
which the rational model abstracts as an arbitrary function `sq`
(instantiable with any concrete evaluation); the claim under scrutiny is
about the conditional/capping structure, which holds for every `sq`. -/

/-- One node's distance-to-nearest-centroid:
`torch.min(torch.cdist(x_mask, centroids), dim=-1)`, with `sq` standing
for the square root inside `cdist`. -/
def minDistTo (sq : ℚ → ℚ) (centroids : List (List ℚ)) (x : List ℚ) : ℚ :=
  listMin (centroids.map (fun c => sq (sqDist x c)))

/-- `torch.linalg.vector_norm` (ord 2): `sq` of the sum of squares. -/
def vectorNorm (sq : ℚ → ℚ) (v : List ℚ) : ℚ := sq (sumSq v)

/-- The auxiliary pooling loss of `MonteCarloBlock.hard_fn`
(src/poolblocks/poolblock.py lines 551-557): `0` when the weight is zero;
otherwise `weight * vector_norm(min distances)`, and when that value is at
least 10 it is divided by its (gradient-detached) value over 10. -/
def clusteringLossTerm (sq : ℚ → ℚ) (w : ℚ) (xs centroids : List (List ℚ)) : ℚ :=
  if w = 0 then 0
  else
    let L := w * vectorNorm sq (xs.map (minDistTo sq centroids))
    if 10 ≤ L then L / (L / 10) else L

/-! ## Claim C7 -/

/-- C7: the auxiliary pooling loss is exactly 0 when
`clustering_loss_weight = 0`; otherwise it equals the weight times the
vector norm of the per-valid-node minimum centroid distances, except that
any value at least 10 is rescaled to exactly 10. -/
theorem clustering_loss_zero_or_capped (sq : ℚ → ℚ) (w : ℚ)
    (xs centroids : List (List ℚ)) :
    clusteringLossTerm sq w xs centroids
      = if w = 0 then 0
        else if 10 ≤ w * vectorNorm sq (xs.map (minDistTo sq centroids))
          then 10
          else w * vectorNorm sq (xs.map (minDistTo sq centroids)) := by
  unfold clusteringLossTerm
  by_cases hw : w = 0
  · simp [hw]
  · rw [if_neg hw, if_neg hw]
    set L := w * vectorNorm sq (xs.map (minDistTo sq centroids)) with hL
    by_cases h10 : 10 ≤ L
    · rw [if_pos h10, if_pos h10]
      have hL0 : L ≠ 0 := ne_of_gt (lt_of_lt_of_le (by norm_num) h10)
      field_simp
    · rw [if_neg h10, if_neg h10]

/-! ## MonteCarloBlock constructor and forward validation
(src/poolblocks/poolblock.py lines 453-472 and 560-562) -/

/-- Constructor arguments of `MonteCarloBlock` relevant to its validation
(`perturbation` records whether a perturbing distribution was supplied;
`cpu_workers` is the `custom_logger.cpu_workers` global). -/
structure MCArgs where
  soft_sampling : ℚ
  perturbation : Bool
  num_mc_samples : ℕ
  transparency : ℚ
  use_centroids_as_embedding : Bool
  cpu_workers : ℕ
deriving Repr

/-- `MonteCarloBlock.__init__` validation, in source order.  The check at
lines 453-456 reads `self.num_mc_samples` before that attribute is
assigned (line 458), so a truthy `use_centroids_as_embedding` raises
`AttributeError` unconditionally; then multiple Monte-Carlo samples
require a stochastic mechanism (lines 459-461), `transparency != 1`
requires a perturbation distribution (lines 462-463), and at most one
gradient-approximation method may be active (lines 464-466). -/
def mcInit (a : MCArgs) : Except String MCArgs :=
  if a.use_centroids_as_embedding = true then
    .error "AttributeError: num_mc_samples referenced before assignment"
  else if 1 < a.num_mc_samples ∧ a.soft_sampling = 0 ∧ a.perturbation = false then
    .error "ValueError: multiple MC samples need nondeterministic sampling"
  else if a.transparency ≠ 1 ∧ a.perturbation = false then
    .error "ValueError: a perturbation distribution must be given"
  else if a.soft_sampling ≠ 0 ∧ a.perturbation = true then
    .error "ValueError: only one gradient approximation method at once"
  else
    .ok a

/-- `MonteCarloBlock.forward` begins with `assert self.transparency == 1`
(src/poolblocks/poolblock.py line 561). -/
def mcForward (a : MCArgs) : Except String Unit :=
  if a.transparency = 1 then .ok () else .error "AssertionError"

/-! ## Claim C9 -/

/-- C9 counterexample: a perturbation distribution is supplied yet
construction with `transparency != 1` fails, because `soft_sampling != 0`
trips the mutual-exclusion check of gradient-approximation methods
(src/poolblocks/poolblock.py lines 464-466).  This refutes the claim that
construction permits `transparency != 1` whenever a perturbation
distribution is supplied. -/
theorem mc_perturbation_not_sufficient_counterexample :
    (MCArgs.mk (1/2) true 1 (1/2) false 0).perturbation = true ∧
    (MCArgs.mk (1/2) true 1 (1/2) false 0).transparency ≠ 1 ∧
    ¬ exOk (mcInit (MCArgs.mk (1/2) true 1 (1/2) false 0)) := by
  refine ⟨rfl, by norm_num, ?_⟩
  norm_num [mcInit, exOk]

/-- C9 amended: for every `MonteCarloBlock` constructed with
`transparency != 1` — which construction permits exactly when a
perturbation distribution is supplied, soft sampling is disabled, and
centroids-as-embedding is off — every call to `forward` fails with an
assertion error; `forward` can only succeed when `transparency == 1`. -/
theorem mc_forward_requires_full_transparency (a : MCArgs)
    (h : a.transparency ≠ 1) :
    ¬ exOk (mcForward a) ∧
    (exOk (mcInit a) ↔
      a.perturbation = true ∧ a.soft_sampling = 0 ∧
        a.use_centroids_as_embedding = false) ∧
    (∀ b : MCArgs, exOk (mcForward b) → b.transparency = 1) := by
  refine ⟨?_, ?_, ?_⟩
  · unfold mcForward
    rw [if_neg h]
    exact fun hc => hc
  · unfold mcInit
    split
    · rename_i hcae
      simp only [exOk, false_iff]
      rintro ⟨-, -, hfalse⟩
      rw [hfalse] at hcae
      exact absurd hcae (by simp)
    · split
      · rename_i hcae hmc
        simp only [exOk, false_iff]
        rintro ⟨hp, -, -⟩
        rw [hp] at hmc
        simp at hmc
      · split
        · rename_i hcae hmc htr
          simp only [exOk, false_iff]
          rintro ⟨hp, -, -⟩
          rw [hp] at htr
          simp at htr
        · split
          · rename_i hcae hmc htr hexcl
            simp only [exOk, false_iff]
            rintro ⟨hp, hs, -⟩
            exact hexcl.1 hs
          · rename_i hcae hmc htr hexcl
            simp only [exOk, true_iff]
            have hp : a.perturbation = true := by
              by_contra hpf
              have hpf2 : a.perturbation = false := by
                cases hpb : a.perturbation
                · rfl
                · exact absurd hpb hpf
              exact htr ⟨h, hpf2⟩
            refine ⟨hp, ?_, by simpa using hcae⟩
            by_contra hs
            exact hexcl ⟨hs, hp⟩
  · intro b hb
    unfold mcForward at hb
    by_cases htb : b.transparency = 1
    · exact htb
    · rw [if_neg htb] at hb
      exact absurd hb (fun hc => hc)

/-- Witness for the amended C9: perturbation supplied, soft sampling off,
`transparency = 1/2` — forward fails and construction succeeds. -/
theorem mc_forward_requires_full_transparency_witness :
    ((MCArgs.mk 0 true 1 (1/2) false 0).transparency ≠ 1) ∧
    (¬ exOk (mcForward (MCArgs.mk 0 true 1 (1/2) false 0)) ∧
      (exOk (mcInit (MCArgs.mk 0 true 1 (1/2) false 0)) ↔
        (MCArgs.mk 0 true 1 (1/2) false 0).perturbation = true ∧
          (MCArgs.mk 0 true 1 (1/2) false 0).soft_sampling = 0 ∧
          (MCArgs.mk 0 true 1 (1/2) false 0).use_centroids_as_embedding = false) ∧
      (∀ b : MCArgs, exOk (mcForward b) → b.transparency = 1)) :=
  ⟨by norm_num,
    mc_forward_requires_full_transparency (MCArgs.mk 0 true 1 (1/2) false 0)
      (by norm_num)⟩

/-! ## MonteCarloBlock global-clustering state machine
(src/poolblocks/poolblock.py lines 440-444, 474-485, 560-562, 755-760) -/

/-- The mutable state of a `MonteCarloBlock` relevant to global
clustering: the construction-time `global_clusters` flag, the
`use_global_clusters` mode bit (False at construction), the accumulated
`seen_embeddings` buffer, the wrapped clustering algorithm's centroids,
and the module's training flag. -/
structure MCBlockState where
  global_clusters : Bool
  use_global_clusters : Bool
  seen_embeddings : List (List ℚ)
  centroids : List (List ℚ)
  training : Bool

/-- `MonteCarloBlock.preprocess` state effect (lines 480-484): while
training with `global_clusters`, the valid embeddings are appended
(detached) to the buffer. -/
def preprocessState (x_masked : List (List ℚ)) (s : MCBlockState) : MCBlockState :=
  if s.global_clusters = true ∧ s.training = true then
    { s with seen_embeddings := s.seen_embeddings ++ x_masked }
  else s

/-- `_generate_assignments` state effect (lines 355-360): when not in
global-clustering mode, the clustering algorithm is re-fit on the current
valid embeddings, updating its centroids. -/
def generateAssignmentsState (x_masked : List (List ℚ))
    (fit : List (List ℚ) → List (List ℚ)) (s : MCBlockState) : MCBlockState :=
  if s.use_global_clusters = false then { s with centroids := fit x_masked }
  else s

/-- `MonteCarloBlock.forward` state effect: `preprocess` followed by
`hard_fn`, whose assignment generation may re-fit local clusters. -/
def forwardState (x_masked : List (List ℚ))
    (fit : List (List ℚ) → List (List ℚ)) (s : MCBlockState) : MCBlockState :=
  generateAssignmentsState x_masked fit (preprocessState x_masked s)

/-- `MonteCarloBlock.end_epoch` (lines 755-760): a no-op unless
`global_clusters` is set; otherwise enables global clustering, re-fits the
clustering algorithm on the whole accumulated buffer, and clears it. -/
def endEpochState (fit : List (List ℚ) → List (List ℚ)) (s : MCBlockState) :
    MCBlockState :=
  if s.global_clusters = false then s
  else { s with use_global_clusters := true,
                centroids := fit s.seen_embeddings,
                seen_embeddings := [] }

/-- The operations that touch this state after construction. -/
inductive MCBlockOp where
  | preprocessOp (x_masked : List (List ℚ))
  | forwardOp (x_masked : List (List ℚ)) (fit : List (List ℚ) → List (List ℚ))
  | endEpochOp (fit : List (List ℚ) → List (List ℚ))

/-- Apply one block operation to the state. -/
def applyOp (op : MCBlockOp) (s : MCBlockState) : MCBlockState :=
  match op with
  | .preprocessOp x => preprocessState x s
  | .forwardOp x fit => forwardState x fit s
  | .endEpochOp fit => endEpochState fit s

/-- Apply a sequence of block operations, oldest first. -/
def applyOps (ops : List MCBlockOp) (s : MCBlockState) : MCBlockState :=
  ops.foldl (fun st op => applyOp op st) s

theorem applyOp_preserves_global_mode (op : MCBlockOp) (s : MCBlockState)
    (h : s.use_global_clusters = true) :
    (applyOp op s).use_global_clusters = true := by
  cases op with
  | preprocessOp x =>
    show (preprocessState x s).use_global_clusters = true
    unfold preprocessState
    split <;> simpa using h
  | forwardOp x fit =>
    show (generateAssignmentsState x fit (preprocessState x s)).use_global_clusters = true
    have hp : (preprocessState x s).use_global_clusters = true := by
      unfold preprocessState
      split <;> simpa using h
    unfold generateAssignmentsState
    split <;> simpa using hp
  | endEpochOp fit =>
    show (endEpochState fit s).use_global_clusters = true
    unfold endEpochState
    split
    · exact h
    · rfl

theorem applyOps_preserves_global_mode (ops : List MCBlockOp) (s : MCBlockState)
    (h : s.use_global_clusters = true) :
    (applyOps ops s).use_global_clusters = true := by
  induction ops generalizing s with
  | nil => exact h
  | cons op rest ih =>
    exact ih (applyOp op s) (applyOp_preserves_global_mode op s h)

/-! ## Claim C6 -/

/-- C6: with `global_clusters = True`, `end_epoch()` re-fits the
clustering algorithm on the entire accumulated embedding buffer, resets
the buffer to empty, and enables global-clustering mode; and no later
sequence of `forward`, `preprocess` or `end_epoch` calls ever leaves
global-clustering mode again. -/
theorem end_epoch_makes_global_clustering_permanent (s : MCBlockState)
    (fit : List (List ℚ) → List (List ℚ)) (hg : s.global_clusters = true) :
    (endEpochState fit s).use_global_clusters = true ∧
    (endEpochState fit s).centroids = fit s.seen_embeddings ∧
    (endEpochState fit s).seen_embeddings = [] ∧
    (∀ ops : List MCBlockOp,
      (applyOps ops (endEpochState fit s)).use_global_clusters = true) := by
  have hne : ¬ s.global_clusters = false := by simp [hg]
  refine ⟨?_, ?_, ?_, ?_⟩
  · unfold endEpochState
    rw [if_neg hne]
  · unfold endEpochState
    rw [if_neg hne]
  · unfold endEpochState
    rw [if_neg hne]
  · intro ops
    apply applyOps_preserves_global_mode
    unfold endEpochState
    rw [if_neg hne]

/-- Witness for C6: a freshly constructed global-clustering block that has
seen one embedding; after `end_epoch` with an identity re-fit, the mode
bit is set, the centroids are the buffer contents, the buffer is empty,
and the mode survives any later operation sequence. -/
theorem end_epoch_makes_global_clustering_permanent_witness :
    ((MCBlockState.mk true false [[1]] [] true).global_clusters = true) ∧
    ((endEpochState id (MCBlockState.mk true false [[1]] [] true)).use_global_clusters = true ∧
      (endEpochState id (MCBlockState.mk true false [[1]] [] true)).centroids
        = id (MCBlockState.mk true false [[1]] [] true).seen_embeddings ∧
      (endEpochState id (MCBlockState.mk true false [[1]] [] true)).seen_embeddings = [] ∧
      (∀ ops : List MCBlockOp,
        (applyOps ops (endEpochState id (MCBlockState.mk true false [[1]] [] true))).use_global_clusters = true)) :=
  ⟨rfl, end_epoch_makes_global_clustering_permanent
    (MCBlockState.mk true false [[1]] [] true) id rfl⟩

/-! ## Batched connected components
(`_calculate_local_clusters_scipy`, src/poolblocks/poolblock.py
lines 334-346, and `graphutils.dense_components`)

`graphutils` is part of the repository but not among the provided source
files.  `dense_components` is therefore modelled from the specification
(section 4.3): an edge is present iff its adjacency value exceeds 0.5,
components are restricted to valid (masked-in) nodes, traversal is
symmetric for both settings of `is_directed` (weak connectivity), id 0 is
reserved for invalid nodes, and ids `1..C_b` partition the valid nodes
into maximal connected components.  The computation below labels each
component by the rank of its smallest member. -/

/-- One saturation step of bounded reachability: add every node reachable
from the current set by a single step. -/
def expandF {n : ℕ} (step : Fin n → Fin n → Bool) (s : Finset (Fin n)) :
    Finset (Fin n) :=
  s ∪ Finset.univ.filter (fun j => ∃ m ∈ s, step m j = true)

/-- `k`-fold saturation of a node set under `expandF`. -/
def reachIter {n : ℕ} (step : Fin n → Fin n → Bool) :
    ℕ → Finset (Fin n) → Finset (Fin n)
  | 0, s => s
  | k + 1, s => reachIter step k (expandF step s)

/-- Decidable reachability: `j` lies in the `n`-fold saturation of `{i}`
(enough iterations to reach a fixpoint on `n` nodes). -/
def connB {n : ℕ} (step : Fin n → Fin n → Bool) (i j : Fin n) : Bool :=
  decide (j ∈ reachIter step n {i})

/-- The step relation of a boolean step function, as a `Prop` relation. -/
def StepRel {n : ℕ} (step : Fin n → Fin n → Bool) : Fin n → Fin n → Prop :=
  fun a b => step a b = true

theorem subset_expandF {n : ℕ} (step : Fin n → Fin n → Bool)
    (s : Finset (Fin n)) : s ⊆ expandF step s :=
  Finset.subset_union_left

theorem expandF_mono {n : ℕ} (step : Fin n → Fin n → Bool)
    {s t : Finset (Fin n)} (h : s ⊆ t) : expandF step s ⊆ expandF step t := by
  intro x hx
  unfold expandF at hx ⊢
  rcases Finset.mem_union.mp hx with hx | hx
  · exact Finset.mem_union_left _ (h hx)
  · rcases Finset.mem_filter.mp hx with ⟨hu, m, hm, hstep⟩
    exact Finset.mem_union_right _ (Finset.mem_filter.mpr ⟨hu, m, h hm, hstep⟩)

theorem subset_reachIter {n : ℕ} (step : Fin n → Fin n → Bool) (k : ℕ) :
    ∀ s : Finset (Fin n), s ⊆ reachIter step k s := by
  induction k with
  | zero => exact fun s => subset_refl s
  | succ k ih =>
    intro s
    exact subset_trans (subset_expandF step s) (ih (expandF step s))

theorem reachIter_expandF_comm {n : ℕ} (step : Fin n → Fin n → Bool) (k : ℕ) :
    ∀ s : Finset (Fin n),
      reachIter step k (expandF step s) = expandF step (reachIter step k s) := by
  induction k with
  | zero => exact fun s => rfl
  | succ k ih =>
    intro s
    show reachIter step k (expandF step (expandF step s))
        = expandF step (reachIter step k (expandF step s))
    exact ih (expandF step s)

theorem reachIter_succ_eq {n : ℕ} (step : Fin n → Fin n → Bool) (k : ℕ)
    (s : Finset (Fin n)) :
    reachIter step (k + 1) s = expandF step (reachIter step k s) :=
  reachIter_expandF_comm step k s

theorem reachIter_add {n : ℕ} (step : Fin n → Fin n → Bool) (a b : ℕ)
    (s : Finset (Fin n)) :
    reachIter step (a + b) s = reachIter step b (reachIter step a s) := by
  induction b with
  | zero => rfl
  | succ b ih =>
    rw [show a + (b + 1) = (a + b) + 1 from rfl, reachIter_succ_eq,
      reachIter_succ_eq, ih]

theorem reachIter_of_fixed {n : ℕ} (step : Fin n → Fin n → Bool) (k : ℕ)
    (s : Finset (Fin n)) (h : expandF step s = s) : reachIter step k s = s := by
  induction k with
  | zero => rfl
  | succ k ih =>
    show reachIter step k (expandF step s) = s
    rw [h, ih]

theorem card_grows_until_fixed {n : ℕ} (step : Fin n → Fin n → Bool)
    (s : Finset (Fin n)) (K : ℕ)
    (h : ∀ m : ℕ, m < K → expandF step (reachIter step m s) ≠ reachIter step m s) :
    s.card + K ≤ (reachIter step K s).card := by
  induction K with
  | zero =>
    show s.card + 0 ≤ s.card
    omega
  | succ K ih =>
    have hK := ih (fun m hm => h m (Nat.lt_succ_of_lt hm))
    have hneK := h K (Nat.lt_succ_self K)
    have hss : reachIter step K s ⊂ expandF step (reachIter step K s) :=
      Finset.ssubset_iff_subset_ne.mpr ⟨subset_expandF step _, (Ne.symm hneK)⟩
    have hcard := Finset.card_lt_card hss
    rw [← reachIter_succ_eq] at hcard
    omega

theorem expandF_reachIter_n_fixed {n : ℕ} (step : Fin n → Fin n → Bool)
    (i : Fin n) :
    expandF step (reachIter step n {i}) = reachIter step n {i} := by
  by_cases hfix : ∃ m : ℕ, m < n ∧ expandF step (reachIter step m {i}) = reachIter step m {i}
  · rcases hfix with ⟨m, hm, hfx⟩
    have hmn : m + (n - m) = n := by omega
    have hsplit : reachIter step n {i} = reachIter step m {i} := by
      calc reachIter step n {i} = reachIter step (m + (n - m)) {i} := by rw [hmn]
        _ = reachIter step (n - m) (reachIter step m {i}) := reachIter_add step m (n - m) {i}
        _ = reachIter step m {i} := reachIter_of_fixed step (n - m) _ hfx
    rw [hsplit, hfx]
  · push_neg at hfix
    have hgrow := card_grows_until_fixed step {i} n hfix
    have hbound : (reachIter step n ({i} : Finset (Fin n))).card ≤ n := by
      have := Finset.card_le_univ (reachIter step n ({i} : Finset (Fin n)))
      simpa using this
    rw [Finset.card_singleton] at hgrow
    omega

theorem reachIter_sound {n : ℕ} (step : Fin n → Fin n → Bool) (k : ℕ) :
    ∀ (s : Finset (Fin n)) (j : Fin n), j ∈ reachIter step k s →
      ∃ i ∈ s, Relation.ReflTransGen (StepRel step) i j := by
  induction k with
  | zero => exact fun s j hj => ⟨j, hj, Relation.ReflTransGen.refl⟩
  | succ k ih =>
    intro s j hj
    rcases ih (expandF step s) j hj with ⟨m, hm, hrtg⟩
    unfold expandF at hm
    rcases Finset.mem_union.mp hm with hm | hm
    · exact ⟨m, hm, hrtg⟩
    · rcases Finset.mem_filter.mp hm with ⟨-, a, ha, hstep⟩
      exact ⟨a, ha, Relation.ReflTransGen.head hstep hrtg⟩

theorem mem_of_fixed_step {n : ℕ} (step : Fin n → Fin n → Bool)
    {s : Finset (Fin n)} (hfx : expandF step s = s) {a b : Fin n}
    (ha : a ∈ s) (hab : step a b = true) : b ∈ s := by
  have : b ∈ expandF step s := by
    unfold expandF
    exact Finset.mem_union_right _
      (Finset.mem_filter.mpr ⟨Finset.mem_univ b, a, ha, hab⟩)
  rwa [hfx] at this

theorem mem_reachIter_of_rtg {n : ℕ} (step : Fin n → Fin n → Bool)
    {i j : Fin n} (h : Relation.ReflTransGen (StepRel step) i j) :
    j ∈ reachIter step n {i} := by
  induction h with
  | refl => exact subset_reachIter step n {i} (Finset.mem_singleton_self i)
  | tail hbc hstep ih =>
    exact mem_of_fixed_step step (expandF_reachIter_n_fixed step i) ih hstep

theorem connB_eq_true_iff {n : ℕ} (step : Fin n → Fin n → Bool) (i j : Fin n) :
    connB step i j = true ↔ Relation.ReflTransGen (StepRel step) i j := by
  unfold connB
  rw [decide_eq_true_iff]
  constructor
  · intro h
    rcases reachIter_sound step n {i} j h with ⟨m, hm, hrtg⟩
    rwa [Finset.mem_singleton.mp hm] at hrtg
  · exact mem_reachIter_of_rtg step

/-! ## Component representatives and cluster ids -/

theorem foldl_min_le_init {α : Type} [LinearOrder α] (l : List α) (a : α) :
    l.foldl min a ≤ a := by
  induction l generalizing a with
  | nil => exact le_refl a
  | cons x t ih =>
    exact le_trans (ih (min a x)) (min_le_left a x)

theorem foldl_min_le_mem {α : Type} [LinearOrder α] (l : List α) (a b : α)
    (hb : b ∈ l) : l.foldl min a ≤ b := by
  induction l generalizing a with
  | nil => cases hb
  | cons x t ih =>
    rcases List.mem_cons.mp hb with rfl | hmem
    · exact le_trans (foldl_min_le_init t (min a b)) (min_le_right a b)
    · exact ih (min a x) hmem

theorem foldl_min_eq_or_mem {α : Type} [LinearOrder α] (l : List α) (a : α) :
    l.foldl min a = a ∨ l.foldl min a ∈ l := by
  induction l generalizing a with
  | nil => exact Or.inl rfl
  | cons x t ih =>
    rcases ih (min a x) with h | h
    · rcases le_total a x with hle | hle
      · left
        rw [List.foldl_cons, h, min_eq_left hle]
      · right
        rw [List.foldl_cons, h, min_eq_right hle]
        exact List.mem_cons_self x t
    · exact Or.inr (List.mem_cons_of_mem x h)

theorem foldl_min_eq_of_mem {α : Type} [LinearOrder α] (l : List α) (a b : α)
    (ha : a ∈ l) (hb : b ∈ l) : l.foldl min a = l.foldl min b := by
  have hamem : l.foldl min a ∈ l := by
    rcases foldl_min_eq_or_mem l a with h | h
    · rw [h]; exact ha
    · exact h
  have hbmem : l.foldl min b ∈ l := by
    rcases foldl_min_eq_or_mem l b with h | h
    · rw [h]; exact hb
    · exact h
  exact le_antisymm (foldl_min_le_mem l a _ hbmem) (foldl_min_le_mem l b _ hamem)

/-- The members of `i`'s connected component, in node order. -/
def compList {n : ℕ} (step : Fin n → Fin n → Bool) (i : Fin n) : List (Fin n) :=
  (List.finRange n).filter (fun j => connB step i j)

/-- The representative (least member) of `i`'s connected component. -/
def compRep {n : ℕ} (step : Fin n → Fin n → Bool) (i : Fin n) : Fin n :=
  (compList step i).foldl min i

/-- Cluster id assignment: 0 for invalid nodes; a valid node receives one
plus the number of component representatives of valid nodes that are
strictly smaller than its own representative, so ids enumerate the
components as `1..C_b`. -/
def clusterId {n : ℕ} (step : Fin n → Fin n → Bool) (mask : Fin n → Bool)
    (i : Fin n) : ℕ :=
  if mask i = true then
    1 + (Finset.univ.filter (fun r : Fin n =>
        mask r = true ∧ compRep step r = r ∧ r < compRep step i)).card
  else 0

theorem mem_compList_iff {n : ℕ} (step : Fin n → Fin n → Bool) (i j : Fin n) :
    j ∈ compList step i ↔ connB step i j = true := by
  simp [compList, List.mem_filter]

theorem self_mem_compList {n : ℕ} (step : Fin n → Fin n → Bool) (i : Fin n) :
    i ∈ compList step i := by
  rw [mem_compList_iff, connB_eq_true_iff]

theorem compRep_conn {n : ℕ} (step : Fin n → Fin n → Bool) (i : Fin n) :
    Relation.ReflTransGen (StepRel step) i (compRep step i) := by
  rcases foldl_min_eq_or_mem (compList step i) i with h | h
  · unfold compRep
    rw [h]
  · have := (mem_compList_iff step i _).mp h
    exact (connB_eq_true_iff step i _).mp this

theorem compList_congr_of_conn {n : ℕ} (step : Fin n → Fin n → Bool)
    (hsymm : Symmetric (StepRel step)) (i j : Fin n)
    (hconn : Relation.ReflTransGen (StepRel step) i j) :
    compList step i = compList step j := by
  unfold compList
  apply List.filter_congr
  intro k hk
  have hbool : ∀ x y : Bool, (x = true ↔ y = true) → x = y := by decide
  apply hbool
  rw [connB_eq_true_iff, connB_eq_true_iff]
  have hsymmR := Relation.ReflTransGen.symmetric hsymm
  constructor
  · intro h
    exact Relation.ReflTransGen.trans (hsymmR hconn) h
  · intro h
    exact Relation.ReflTransGen.trans hconn h

theorem compRep_eq_of_conn {n : ℕ} (step : Fin n → Fin n → Bool)
    (hsymm : Symmetric (StepRel step)) (i j : Fin n)
    (hconn : Relation.ReflTransGen (StepRel step) i j) :
    compRep step i = compRep step j := by
  unfold compRep
  rw [compList_congr_of_conn step hsymm i j hconn]
  exact foldl_min_eq_of_mem (compList step j) i j
    (by
      rw [← compList_congr_of_conn step hsymm i j hconn]
      exact self_mem_compList step i)
    (self_mem_compList step j)

theorem conn_of_compRep_eq {n : ℕ} (step : Fin n → Fin n → Bool)
    (hsymm : Symmetric (StepRel step)) (i j : Fin n)
    (h : compRep step i = compRep step j) :
    Relation.ReflTransGen (StepRel step) i j := by
  have hsymmR := Relation.ReflTransGen.symmetric hsymm
  have hi := compRep_conn step i
  have hj := compRep_conn step j
  rw [h] at hi
  exact Relation.ReflTransGen.trans hi (hsymmR hj)

theorem compRep_idem {n : ℕ} (step : Fin n → Fin n → Bool)
    (hsymm : Symmetric (StepRel step)) (i : Fin n) :
    compRep step (compRep step i) = compRep step i :=
  (compRep_eq_of_conn step hsymm i (compRep step i) (compRep_conn step i)).symm

theorem mask_compRep {n : ℕ} (step : Fin n → Fin n → Bool) (mask : Fin n → Bool)
    (hstep : ∀ a b : Fin n, step a b = true → mask b = true) (i : Fin n)
    (hi : mask i = true) : mask (compRep step i) = true := by
  rcases Relation.ReflTransGen.cases_tail (compRep_conn step i) with h | ⟨c, -, hstepc⟩
  · rw [h]; exact hi
  · exact hstep c _ hstepc

theorem clusterId_card_lt {n : ℕ} (step : Fin n → Fin n → Bool)
    (mask : Fin n → Bool) (hsymm : Symmetric (StepRel step))
    (hstep : ∀ a b : Fin n, step a b = true → mask b = true) (i j : Fin n)
    (hi : mask i = true) (hlt : compRep step i < compRep step j) :
    (Finset.univ.filter (fun r : Fin n =>
        mask r = true ∧ compRep step r = r ∧ r < compRep step i)).card
      < (Finset.univ.filter (fun r : Fin n =>
        mask r = true ∧ compRep step r = r ∧ r < compRep step j)).card := by
  apply Finset.card_lt_card
  rw [Finset.ssubset_iff_of_subset]
  · refine ⟨compRep step i, ?_, ?_⟩
    · exact Finset.mem_filter.mpr ⟨Finset.mem_univ _,
        mask_compRep step mask hstep i hi, compRep_idem step hsymm i, hlt⟩
    · intro hmem
      rcases Finset.mem_filter.mp hmem with ⟨-, -, -, hcon⟩
      exact absurd hcon (lt_irrefl _)
  · intro r hr
    rcases Finset.mem_filter.mp hr with ⟨hu, hm, hrep, hrlt⟩
    exact Finset.mem_filter.mpr ⟨hu, hm, hrep, lt_trans hrlt hlt⟩

theorem clusterId_eq_iff {n : ℕ} (step : Fin n → Fin n → Bool)
    (mask : Fin n → Bool) (hsymm : Symmetric (StepRel step))
    (hstep : ∀ a b : Fin n, step a b = true → mask b = true) (i j : Fin n)
    (hi : mask i = true) (hj : mask j = true) :
    clusterId step mask i = clusterId step mask j ↔
      Relation.ReflTransGen (StepRel step) i j := by
  constructor
  · intro h
    apply conn_of_compRep_eq step hsymm
    rcases lt_trichotomy (compRep step i) (compRep step j) with hlt | heq | hgt
    · have := clusterId_card_lt step mask hsymm hstep i j hi hlt
      unfold clusterId at h
      rw [if_pos hi, if_pos hj] at h
      omega
    · exact heq
    · have := clusterId_card_lt step mask hsymm hstep j i hj hgt
      unfold clusterId at h
      rw [if_pos hi, if_pos hj] at h
      omega
  · intro hconn
    unfold clusterId
    rw [if_pos hi, if_pos hj, compRep_eq_of_conn step hsymm i j hconn]

/-! ## The dense-components step relation -/

/-- Modelled from the spec: the single-edge relation of
`graphutils.dense_components` (section 4.3) — an edge is usable iff both
endpoints are valid and the adjacency value exceeds 0.5 in either
direction (traversal is symmetric for both settings of `is_directed`,
i.e. weak connectivity). -/
def denseStep {n : ℕ} (adjM : Fin n → Fin n → ℚ) (mask : Fin n → Bool)
    (i j : Fin n) : Bool :=
  mask i && mask j && (decide (1/2 < adjM i j) || decide (1/2 < adjM j i))

/-- The concept masking applied by `_calculate_local_clusters_scipy`
(src/poolblocks/poolblock.py line 344):
`adj = torch.where(concepts[:, :, None] == concepts[:, None, :], adj, 0)`. -/
def conceptMaskAdj {n : ℕ} (adj : Fin n → Fin n → ℚ) (concepts : Fin n → ℕ) :
    Fin n → Fin n → ℚ :=
  fun i j => if concepts i = concepts j then adj i j else 0

theorem denseStep_true_iff {n : ℕ} (adjM : Fin n → Fin n → ℚ)
    (mask : Fin n → Bool) (i j : Fin n) :
    denseStep adjM mask i j = true ↔
      mask i = true ∧ mask j = true ∧ (1/2 < adjM i j ∨ 1/2 < adjM j i) := by
  unfold denseStep
  simp [Bool.and_eq_true, Bool.or_eq_true, decide_eq_true_iff, and_assoc]

theorem denseStep_symmetric {n : ℕ} (adjM : Fin n → Fin n → ℚ)
    (mask : Fin n → Bool) : Symmetric (StepRel (denseStep adjM mask)) := by
  intro a b hab
  unfold StepRel at hab ⊢
  rw [denseStep_true_iff] at hab ⊢
  tauto

theorem denseStep_mask_right {n : ℕ} (adjM : Fin n → Fin n → ℚ)
    (mask : Fin n → Bool) :
    ∀ a b : Fin n, denseStep adjM mask a b = true → mask b = true := by
  intro a b hab
  rw [denseStep_true_iff] at hab
  exact hab.2.1

/-- Modelled from the spec: `graphutils.dense_components` (the module is
part of the repository but not among the provided sources).  Per
section 4.3, id 0 marks invalid nodes and ids `1..C_b` label the
connected components of the valid nodes under the 0.5-thresholded,
symmetrically traversed adjacency; components are labelled here by the
rank of their least member. -/
def denseComponents {n : ℕ} (adjM : Fin n → Fin n → ℚ) (mask : Fin n → Bool) :
    Fin n → ℕ :=
  clusterId (denseStep adjM mask) mask

/-- `_calculate_local_clusters_scipy` for one batch element
(src/poolblocks/poolblock.py lines 334-346): mask away edges between
nodes of different concepts, then run the dense components engine. -/
def calculateLocalClustersScipy {n : ℕ} (adj : Fin n → Fin n → ℚ)
    (concepts : Fin n → ℕ) (mask : Fin n → Bool) : Fin n → ℕ :=
  denseComponents (conceptMaskAdj adj concepts) mask

/-- The batched `_calculate_local_clusters_scipy`: the computation is
applied independently to every batch element. -/
def calculateLocalClustersBatch {n : ℕ} (adjB : ℕ → Fin n → Fin n → ℚ)
    (conceptsB : ℕ → Fin n → ℕ) (maskB : ℕ → Fin n → Bool) (b : ℕ) :
    Fin n → ℕ :=
  calculateLocalClustersScipy (adjB b) (conceptsB b) (maskB b)

/-- Connection by a path of edges each of weight above 0.5 (in either
direction) whose endpoints are valid and carry the same concept label. -/
def SameConceptConn {n : ℕ} (adj : Fin n → Fin n → ℚ) (concepts : Fin n → ℕ)
    (mask : Fin n → Bool) (i j : Fin n) : Prop :=
  Relation.ReflTransGen
    (fun a b => mask a = true ∧ mask b = true ∧ concepts a = concepts b ∧
      (1/2 < adj a b ∨ 1/2 < adj b a)) i j

theorem stepRel_conceptMask_iff {n : ℕ} (adj : Fin n → Fin n → ℚ)
    (concepts : Fin n → ℕ) (mask : Fin n → Bool) (a b : Fin n) :
    StepRel (denseStep (conceptMaskAdj adj concepts) mask) a b ↔
      (mask a = true ∧ mask b = true ∧ concepts a = concepts b ∧
        (1/2 < adj a b ∨ 1/2 < adj b a)) := by
  unfold StepRel
  rw [denseStep_true_iff]
  unfold conceptMaskAdj
  by_cases hc : concepts a = concepts b
  · rw [if_pos hc, if_pos hc.symm]
    tauto
  · rw [if_neg hc, if_neg (fun h => hc (Eq.symm h))]
    constructor
    · rintro ⟨-, -, h12 | h12⟩ <;> norm_num at h12
    · rintro ⟨-, -, hcc, -⟩
      exact absurd hcc hc

theorem sameConceptConn_iff_rtg {n : ℕ} (adj : Fin n → Fin n → ℚ)
    (concepts : Fin n → ℕ) (mask : Fin n → Bool) (i j : Fin n) :
    SameConceptConn adj concepts mask i j ↔
      Relation.ReflTransGen
        (StepRel (denseStep (conceptMaskAdj adj concepts) mask)) i j := by
  constructor
  · exact Relation.ReflTransGen.mono
      (fun a b hab => (stepRel_conceptMask_iff adj concepts mask a b).mpr hab)
  · exact Relation.ReflTransGen.mono
      (fun a b hab => (stepRel_conceptMask_iff adj concepts mask a b).mp hab)

/-! ## Claim C1 -/

/-- C1: the batched connected-components computation assigns every
invalid node cluster id 0, and two valid nodes of the same batch element
share the same nonzero cluster id iff they are connected by a path of
edges of weight above 0.5 whose endpoints carry the same concept label
(spec-modelled: `graphutils.dense_components` is not among the provided
sources). -/
theorem connected_components_cluster_partition {n : ℕ}
    (adjB : ℕ → Fin n → Fin n → ℚ) (conceptsB : ℕ → Fin n → ℕ)
    (maskB : ℕ → Fin n → Bool) (b : ℕ) (i j : Fin n) :
    (maskB b i = false → calculateLocalClustersBatch adjB conceptsB maskB b i = 0) ∧
    (maskB b i = true → maskB b j = true →
      ((calculateLocalClustersBatch adjB conceptsB maskB b i
          = calculateLocalClustersBatch adjB conceptsB maskB b j ∧
        calculateLocalClustersBatch adjB conceptsB maskB b i ≠ 0) ↔
        SameConceptConn (adjB b) (conceptsB b) (maskB b) i j)) := by
  constructor
  · intro hfalse
    show clusterId (denseStep (conceptMaskAdj (adjB b) (conceptsB b)) (maskB b)) (maskB b) i = 0
    unfold clusterId
    rw [if_neg (by simp [hfalse])]
  · intro hi hj
    rw [sameConceptConn_iff_rtg]
    have hiff := clusterId_eq_iff (denseStep (conceptMaskAdj (adjB b) (conceptsB b)) (maskB b))
      (maskB b) (denseStep_symmetric _ _) (denseStep_mask_right _ _) i j hi hj
    constructor
    · rintro ⟨heq, -⟩
      exact hiff.mp heq
    · intro hconn
      refine ⟨hiff.mpr hconn, ?_⟩
      show clusterId (denseStep (conceptMaskAdj (adjB b) (conceptsB b)) (maskB b)) (maskB b) i ≠ 0
      unfold clusterId
      rw [if_pos hi]
      omega

/-- The ring adjacency 0-1-2-3-0 on four nodes (edge weight 1). -/
def ringAdj4 : Fin 4 → Fin 4 → ℚ := fun i j =>
  if (i.val + 1) % 4 = j.val ∨ (j.val + 1) % 4 = i.val then 1 else 0

/-- Concept labels `[0,0,1,1]` on four nodes. -/
def ringConcepts4 : Fin 4 → ℕ := fun i => if i.val < 2 then 0 else 1

/-- An all-valid mask on four nodes. -/
def allTrue4 : Fin 4 → Bool := fun _ => true

/-- Witness for C1, on the spec's concrete scenario: a 4-ring with
concepts `[0,0,1,1]` and all nodes valid; nodes 0 and 1 are valid and the
theorem yields the cluster-sharing characterisation for them. -/
theorem connected_components_cluster_partition_witness :
    (allTrue4 0 = true ∧ allTrue4 1 = true) ∧
    ((calculateLocalClustersBatch (fun _ => ringAdj4) (fun _ => ringConcepts4)
          (fun _ => allTrue4) 0 0
        = calculateLocalClustersBatch (fun _ => ringAdj4) (fun _ => ringConcepts4)
          (fun _ => allTrue4) 0 1 ∧
      calculateLocalClustersBatch (fun _ => ringAdj4) (fun _ => ringConcepts4)
          (fun _ => allTrue4) 0 0 ≠ 0) ↔
      SameConceptConn ringAdj4 ringConcepts4 allTrue4 0 1) :=
  ⟨⟨rfl, rfl⟩,
    (connected_components_cluster_partition (fun _ => ringAdj4)
      (fun _ => ringConcepts4) (fun _ => allTrue4) 0 0 1).2 rfl rfl⟩
